import Mathlib

/-!
Verification development for the `read-next` repository.

This file gives a shallow embedding of the core of `src/ReadNext.ts` and
`src/ContentHasher.ts`:

* the id → content-fingerprint table (`ContentHasher`),
* the per-document derivation pipeline (`getSummaryFor`),
* batch indexing (`index`), and
* the similarity query (`suggest`),

together with theorems about freshness, caching, frame conditions and the
suggestion contract.

Modelling conventions:

* A JS `Map<string, string>` is an association list with `Map.set` semantics
  (`mapSet` replaces in place, else appends); JS `Map.get` is `mapGet`.
* `DocumentInput.id` is `Option String`; JS truthiness of the id (an
  `undefined` id and the empty-string id are both falsy) is `jsTruthy`.
* The sha-256 hex digest is an abstract parameter `hash : String → String`
  (the code only ever compares digests for equality).
* The summarization service is a parameter `summ : Doc → String`; the number
  of invocations is tracked explicitly in the results of each operation.
* The filesystem `summaries/` directory is a map from file name (the raw id)
  to file content; `contentHashes.json` is the `savedRecords` field.
* The external vector index is a list of (id, document) entries supporting
  delete-by-id and add; its `save` call (failure-swallowed in the source) is
  not modelled as no claim mentions it.
-/

namespace ReadNext

/-- JS truthiness of an optional string: `undefined` and `""` are falsy. -/
def jsTruthy : Option String → Bool
  | none => false
  | some s => !(s == "")

/-- A `DocumentInput`: optional id plus page content (metadata is opaque and
never read by the core, so it is omitted). -/
structure Doc where
  id : Option String
  pageContent : String
deriving Repr, DecidableEq

/-- The string used as map key / file name for a document's id.  Only ever
used when `jsTruthy d.id` holds, in which case it is the id itself. -/
def idKey (d : Doc) : String := d.id.getD ""

/-- JS `Map.get`: value of the first (only) entry with the given key. -/
def mapGet (l : List (String × String)) (k : String) : Option String :=
  (l.find? (fun p => p.1 == k)).map (fun p => p.2)

/-- JS `Map.set`: replace the entry with the given key in place (a `Map`
holds at most one entry per key), otherwise append a new entry at the end,
preserving insertion order. -/
def mapSet : List (String × String) → String → String → List (String × String)
  | [], k, v => [(k, v)]
  | p :: t, k, v => if p.1 == k then (k, v) :: t else p :: mapSet t k v

/-- Number of entries with the given key. -/
def countKey (l : List (String × String)) (k : String) : Nat :=
  (l.filter (fun p => p.1 == k)).length

/-- A JS `Map` invariant: keys are pairwise distinct. -/
def nodupKeys (l : List (String × String)) : Prop :=
  (l.map Prod.fst).Nodup

instance (l : List (String × String)) : Decidable (nodupKeys l) := by
  unfold nodupKeys
  infer_instance

namespace ContentHasher

/-- `ContentHasher.hasFresh` (ContentHasher.ts): compare the stored
fingerprint for the document's id with the digest of its current content;
a falsy id yields `false` (with a warning in the source). -/
def hasFresh (hash : String → String) (records : List (String × String)) (d : Doc) : Bool :=
  if jsTruthy d.id then mapGet records (idKey d) == some (hash d.pageContent)
  else false

/-- `ContentHasher.set` (ContentHasher.ts): store the digest of the
document's content under its id; no-op (with a warning) on a falsy id. -/
def set (hash : String → String) (records : List (String × String)) (d : Doc) :
    List (String × String) :=
  if jsTruthy d.id then mapSet records (idKey d) (hash d.pageContent) else records

/-- State of the persisted `contentHashes.json` file as seen by
`ContentHasher.load`: missing, unparseable JSON, or a parsed table. -/
inductive HashFile where
  | absent
  | malformed
  | table (t : List (String × String))

/-- `ContentHasher.load` (ContentHasher.ts): read the persisted table.  A
missing file leaves the records untouched and returns `true`; a file whose
contents fail to parse logs, leaves the records untouched and returns
`false`; a parsed table replaces the records and returns `true`.  The
function is total: the `try`/`catch` in the source means it never throws. -/
def load (file : HashFile) (records : List (String × String)) :
    List (String × String) × Bool :=
  match file with
  | .absent => (records, true)
  | .malformed => (records, false)
  | .table t => (t, true)

/-- The `ContentHasher` constructor: start with an empty table, then `load`.
Returns the resulting records and the result `load` produced. -/
def construct (file : HashFile) : List (String × String) × Bool :=
  load file []

end ContentHasher

/-- A summary document as built by `index`: the summary text plus
`metadata.sourceDocumentId`. -/
structure SummaryDoc where
  pageContent : String
  sourceDocumentId : Option String
deriving Repr, DecidableEq

/-- The mutable state a `ReadNext` engine instance touches:
in-memory fingerprint table, its on-disk copy (`contentHashes.json`),
the `summaries/` directory, and the external vector index. -/
structure EngineState where
  records : List (String × String)
  savedRecords : List (String × String)
  files : List (String × String)
  vecIndex : List (Option String × SummaryDoc)
deriving Repr

/-- Result of `getSummaryFor`: the returned summary, the state after the
call, and the observable effects (summarizer invocations, artifact-file
writes performed, `ContentHasher.save` calls performed). -/
structure GetSummaryResult where
  summary : String
  st : EngineState
  summarizeCalls : Nat
  artifactWrites : List (String × String)
  hasherSaves : Nat
deriving Repr

/-- The cached-summary read of `getSummaryFor` (ReadNext.ts lines 607-615):
only a truthy id with a fresh fingerprint and an existing
`summaries/<id>` file yields a cached summary. -/
def cachedLookup (hash : String → String) (st : EngineState) (d : Doc) : Option String :=
  if jsTruthy d.id then
    if ContentHasher.hasFresh hash st.records d then mapGet st.files (idKey d) else none
  else none

/-- `ReadNext.getSummaryFor` (ReadNext.ts lines 597-639).  Reads the cache
(fresh fingerprint and existing file required), otherwise invokes the
summarization service; then, when the id is truthy, writes the summary file
(even on a cache hit, the source calls `fs.writeFileSync` unconditionally);
then, when the fingerprint was not fresh, runs `contentHasher.set` followed
by `contentHasher.save` (which rewrites the whole on-disk table). -/
def getSummaryFor (hash : String → String) (summ : Doc → String) (st : EngineState)
    (d : Doc) : GetSummaryResult :=
  let fresh := ContentHasher.hasFresh hash st.records d
  let cached := cachedLookup hash st d
  let summary := match cached with | some s => s | none => summ d
  { summary := summary
    st :=
      { records := if fresh then st.records else ContentHasher.set hash st.records d
        savedRecords := if fresh then st.savedRecords else ContentHasher.set hash st.records d
        files := if jsTruthy d.id then mapSet st.files (idKey d) summary else st.files
        vecIndex := st.vecIndex }
    summarizeCalls := match cached with | some _ => 0 | none => 1
    artifactWrites := if jsTruthy d.id then [(idKey d, summary)] else []
    hasherSaves := if fresh then 0 else 1 }

/-- One iteration of the loop in `ReadNext.index` (ReadNext.ts lines
541-568): derive the summary, build the summary document, delete any
vector-index entries for the id (delete errors are swallowed), add the new
entry, then `contentHasher.set` and `contentHasher.save` unconditionally. -/
def indexOne (hash : String → String) (summ : Doc → String) (st : EngineState)
    (d : Doc) : SummaryDoc × EngineState × Nat :=
  let r := getSummaryFor hash summ st d
  let sd : SummaryDoc := ⟨r.summary, d.id⟩
  let recs := ContentHasher.set hash r.st.records d
  (sd,
   { records := recs
     savedRecords := recs
     files := r.st.files
     vecIndex := (r.st.vecIndex.filter (fun p => !(p.1 == d.id))) ++ [(d.id, sd)] },
   r.summarizeCalls)

/-- Result of `index`: the summary documents returned, the final state, and
the total number of summarization-service invocations. -/
structure IndexResult where
  summaryDocuments : List SummaryDoc
  st : EngineState
  summarizeCalls : Nat
deriving Repr

/-- `ReadNext.index` (ReadNext.ts lines 537-585): process the source
documents in order.  The final `vectorStore.save` call (logged, not fatal,
and mentioned by no claim) is not modelled. -/
def index (hash : String → String) (summ : Doc → String) (st : EngineState)
    (docs : List Doc) : IndexResult :=
  docs.foldl
    (fun acc d =>
      let r := indexOne hash summ acc.st d
      { summaryDocuments := acc.summaryDocuments ++ [r.1]
        st := r.2.1
        summarizeCalls := acc.summarizeCalls + r.2.2 })
    ⟨[], st, 0⟩

/-- The `Suggestions` return value of `ReadNext.suggest`: the query id and
the related `(sourceDocumentId, score)` pairs.  The score type is a
parameter since the engine never computes with scores. -/
structure Suggestions (α : Type) where
  id : Option String
  related : List (Option String × α)

/-- Result of `suggest`, instrumented with the `k` passed to
`similaritySearchWithScore`, the state after the call and the number of
summarizer invocations. -/
structure SuggestResult (α : Type) where
  suggestions : Suggestions α
  requestedK : Nat
  st : EngineState
  summarizeCalls : Nat

/-- `ReadNext.suggest` (ReadNext.ts lines 665-685): resolve the query
document's summary via `getSummaryFor`, ask the vector index for
`limit + 1` scored results, drop results whose `sourceDocumentId` equals
the query document's id, project to `(sourceDocumentId, score)` and
truncate to `limit + 1`.  The vector index's search is the parameter
`search` and is left arbitrary. -/
def suggest {α : Type} (hash : String → String) (summ : Doc → String)
    (search : String → Nat → List (SummaryDoc × α)) (st : EngineState)
    (d : Doc) (limit : Nat) : SuggestResult α :=
  let r := getSummaryFor hash summ st d
  let results := search r.summary (limit + 1)
  let related :=
    (results.filter (fun p => !(p.1.sourceDocumentId == d.id))).map
      (fun p => (p.1.sourceDocumentId, p.2))
  ⟨⟨d.id, related.take (limit + 1)⟩, limit + 1, r.st, r.summarizeCalls⟩

/-- Modelled from the spec: an event of the ConcurrencyScheduler (§4.4) that
drives the derivation pipeline over a batch — the parallel `index` of the
repository (changelog 0.3.0 "Allow indexing to be run in parallel", tested
in ReadNext.test.ts) is not among the sources, so the scheduler is modelled
from the spec's worker-pool description.  Each in-flight document `i`
contributes a `check i` event (the freshness/cache read of its pipeline run;
the summarization service is invoked exactly when this read misses) followed
later by a `finish i` event (its writes: the artifact file write and the
fingerprint `set`/`save`; `index` runs `set` unconditionally, so `finish`
does too).  Events of different documents may interleave arbitrarily. -/
inductive SEv where
  | check (i : Nat)
  | finish (i : Nat)
deriving Repr, DecidableEq

/-- The document index an event belongs to. -/
def SEv.idx : SEv → Nat
  | .check i => i
  | .finish i => i

/-- Modelled from the spec: the shared state the scheduler's workers mutate —
the fingerprint table, the set of artifact file names present (the cached
read only tests existence, so contents are not tracked here), and the list
of documents whose summarization was invoked, in invocation order. -/
structure SchedState where
  records : List (String × String)
  filesPresent : List String
  invoked : List Nat
deriving Repr

/-- The cache-hit test of a pipeline run over the scheduler state: truthy
id, fresh fingerprint, artifact file present (mirrors the nesting of
`getSummaryFor`). -/
def cachedAt (hash : String → String) (recs : List (String × String))
    (files : List String) (d : Doc) : Bool :=
  if jsTruthy d.id then
    if ContentHasher.hasFresh hash recs d then files.contains (idKey d)
    else false
  else false

/-- Modelled from the spec: effect of one scheduler event on the shared
state.  A `check` records a summarizer invocation when the cached read
misses; a `finish` performs the document's writes. -/
def schedStep (hash : String → String) (docs : List Doc) (s : SchedState) :
    SEv → SchedState
  | .check i =>
    match docs[i]? with
    | none => s
    | some d =>
      if cachedAt hash s.records s.filesPresent d then s
      else { s with invoked := s.invoked ++ [i] }
  | .finish i =>
    match docs[i]? with
    | none => s
    | some d =>
      { s with
        records := ContentHasher.set hash s.records d
        filesPresent := if jsTruthy d.id then idKey d :: s.filesPresent else s.filesPresent }

/-- Modelled from the spec: run the scheduler over a trace of events.  The
parallelism setting `K` bounds how many documents are in flight at once and
thereby which traces can occur; the theorems below hold for every trace, so
for every `K`. -/
def schedRun (hash : String → String) (K : Nat) (docs : List Doc) (s : SchedState)
    (tr : List SEv) : SchedState :=
  let _ := K
  tr.foldl (schedStep hash docs) s

/-- A trace of the scheduler over `n` documents: the cursor hands each index
to exactly one worker, so every document contributes exactly one `check`
and one `finish`, in that order; events mention only real indices. -/
def validTrace (n : Nat) (tr : List SEv) : Prop :=
  (∀ e ∈ tr, SEv.idx e < n) ∧
  ∀ i < n, tr.filter (fun e => SEv.idx e == i) = [SEv.check i, SEv.finish i]

instance (n : Nat) (tr : List SEv) : Decidable (validTrace n tr) := by
  unfold validTrace
  infer_instance

/-- Modelled from the spec: state of the worker pool driving `index` over a
batch (§4.4) — the shared claim cursor, the workers that stopped after a
failed derivation, the successfully processed document indices, and the
errors raised (in order). -/
structure PoolState where
  cursor : Nat
  dead : List Nat
  processed : List Nat
  errors : List String
deriving Repr

/-- Whether a fallible summarization succeeded. -/
def isOkB : Except String String → Bool
  | .ok _ => true
  | .error _ => false

/-- Modelled from the spec: worker `w` runs the derivation of the claimed
document `d` to completion.  A provider error is recorded and stops that
worker (its rejection propagates; there is no cross-worker cancellation). -/
def poolClaim (summ : Doc → Except String String) (s : PoolState) (w : Nat)
    (d : Doc) : PoolState :=
  match summ d with
  | .ok _ => { s with cursor := s.cursor + 1, processed := s.processed ++ [s.cursor] }
  | .error e =>
    { s with cursor := s.cursor + 1, dead := s.dead ++ [w], errors := s.errors ++ [e] }

/-- Modelled from the spec: one scheduling step of the worker pool — a live
worker `w` claims the next unclaimed index from the shared cursor and runs
that document's derivation, while other workers keep claiming.  Derivations
of distinct documents are independent here (no caching is modelled: every
claimed document invokes the service once), so running a claim as one step
loses no observable outcome. -/
def poolStep (summ : Doc → Except String String) (docs : List Doc) (s : PoolState)
    (w : Nat) : PoolState :=
  if s.dead.contains w then s
  else
    match docs[s.cursor]? with
    | none => s
    | some d => poolClaim summ s w d

/-- The initial pool state. -/
def poolInit : PoolState := ⟨0, [], [], []⟩

/-- Modelled from the spec: run the worker pool over a schedule (the order
in which workers get to claim).  The pool has `min K docs.length` workers. -/
def poolRun (summ : Doc → Except String String) (docs : List Doc) (K : Nat)
    (sched : List Nat) : PoolState :=
  let _ := K
  sched.foldl (poolStep summ docs) poolInit

/-- A pool state from which no further progress is possible: either every
index has been claimed, or every worker has stopped after an error. -/
def poolTerminal (docs : List Doc) (K : Nat) (s : PoolState) : Prop :=
  docs.length ≤ s.cursor ∨ ∀ w < min K docs.length, s.dead.contains w = true

instance (docs : List Doc) (K : Nat) (s : PoolState) :
    Decidable (poolTerminal docs K s) := by
  unfold poolTerminal
  infer_instance

/-- What the batch `index` call returns to its caller: the first recorded
error rejects the whole call (`Promise.all` semantics), otherwise the
processed documents are returned. -/
def poolResult (s : PoolState) : Except String (List Nat) :=
  match s.errors with
  | [] => .ok s.processed
  | e :: _ => .error e

/-- A `List.all` form of "every document other than `j` summarizes
successfully". -/
def okExceptAt (summ : Doc → Except String String) (docs : List Doc) (j : Nat) : Bool :=
  (List.range docs.length).all fun i =>
    (i == j) ||
      (match docs[i]? with
       | some d => isOkB (summ d)
       | none => true)

/-- Phase of document `i` relative to the remaining trace `tr` in scheduler
state `s`: not yet checked (both events still in the trace, its cached read
still misses, not yet invoked), checked but not finished (invoked exactly
once), or finished (invoked exactly once).  This is the induction invariant
for the scheduler theorem. -/
def docPhase (hash : String → String) (docs : List Doc) (tr : List SEv)
    (s : SchedState) (i : Nat) : Prop :=
  (tr.filter (fun e => SEv.idx e == i) = [SEv.check i, SEv.finish i] ∧
     (∀ d, docs[i]? = some d → cachedAt hash s.records s.filesPresent d = false) ∧
     s.invoked.count i = 0) ∨
  (tr.filter (fun e => SEv.idx e == i) = [SEv.finish i] ∧ s.invoked.count i = 1) ∨
  (tr.filter (fun e => SEv.idx e == i) = [] ∧ s.invoked.count i = 1)

/-- Induction invariant for the worker pool when exactly the document at
index `j` fails with `err`: the cursor never passes the end, the processed
list is exactly the claimed indices other than `j` in claim order, the
error list holds `err` exactly once `j` has been claimed, and at most one
worker (the one that claimed `j`) has died. -/
def poolInv (docs : List Doc) (j : Nat) (err : String) (s : PoolState) : Prop :=
  s.cursor ≤ docs.length ∧
  s.processed = (List.range s.cursor).filter (fun i => !(i == j)) ∧
  s.errors = (if j < s.cursor then [err] else []) ∧
  (if j < s.cursor then ∃ w, s.dead = [w] else s.dead = [])

/-! Concrete instances used by the witness theorems. -/

/-- A concrete injective stand-in for the sha-256 hex digest. -/
def hashW : String → String := fun s => s

/-- A concrete summarization service. -/
def summW : Doc → String := fun d => String.append "summary:" d.pageContent

/-- A fresh engine (empty caches, empty index). -/
def emptyState : EngineState := ⟨[], [], [], []⟩

/-- A concrete document with a truthy id. -/
def dW : Doc := ⟨some "1", "hello"⟩

/-- The document `dW` with changed content. -/
def dW2 : Doc := ⟨some "1", "hello v2"⟩

/-- A concrete document without an id. -/
def dNoId : Doc := ⟨none, "some text"⟩

/-- A state in which `dW` is fresh and its summary file exists. -/
def freshState : EngineState :=
  ⟨[("1", hashW "hello")], [("1", hashW "hello")], [("1", "cached summary")], []⟩

/-- A concrete two-document batch for the scheduler. -/
def docsW : List Doc := [⟨some "1", "doc one"⟩, ⟨some "2", "doc two"⟩]

/-- A concrete interleaved scheduler trace over `docsW` (both documents in
flight at once). -/
def trW : List SEv := [SEv.check 0, SEv.check 1, SEv.finish 1, SEv.finish 0]

/-- A concrete fallible summarization service that fails on one content. -/
def summX : Doc → Except String String := fun d =>
  if d.pageContent == "bad" then Except.error "provider error"
  else Except.ok (String.append "S:" d.pageContent)

/-- A concrete batch whose first document's summarization fails. -/
def docsX : List Doc := [⟨some "1", "bad"⟩, ⟨some "2", "good"⟩]

/-! Helper lemmas about the JS `Map` model. -/

theorem str_beq_false {a b : String} (h : ¬a = b) : (a == b) = false := by
  cases hb : a == b with
  | false => rfl
  | true => exact absurd (eq_of_beq hb) h

theorem mapGet_cons_of_beq (p : String × String) (t : List (String × String))
    (k : String) (h : (p.1 == k) = true) : mapGet (p :: t) k = some p.2 := by
  have hf : List.find? (fun q => q.1 == k) (p :: t) = some p :=
    List.find?_cons_of_pos t h
  simp [mapGet, hf]

theorem mapGet_cons_of_ne (p : String × String) (t : List (String × String))
    (k : String) (h : (p.1 == k) = false) : mapGet (p :: t) k = mapGet t k := by
  have hf : List.find? (fun q => q.1 == k) (p :: t) = List.find? (fun q => q.1 == k) t :=
    List.find?_cons_of_neg t (by simp [h])
  simp [mapGet, hf]

theorem mapSet_cons_of_beq (p : String × String) (t : List (String × String))
    (k v : String) (h : (p.1 == k) = true) : mapSet (p :: t) k v = (k, v) :: t := by
  simp [mapSet, h]

theorem mapSet_cons_of_ne (p : String × String) (t : List (String × String))
    (k v : String) (h : (p.1 == k) = false) :
    mapSet (p :: t) k v = p :: mapSet t k v := by
  simp [mapSet, h]

theorem mapGet_mapSet_self (l : List (String × String)) (k v : String) :
    mapGet (mapSet l k v) k = some v := by
  induction l with
  | nil =>
    show mapGet [(k, v)] k = some v
    rw [mapGet_cons_of_beq (k, v) [] k (by simp)]
  | cons p t ih =>
    by_cases hp : (p.1 == k) = true
    · rw [mapSet_cons_of_beq p t k v hp, mapGet_cons_of_beq (k, v) t k (by simp)]
    · rw [mapSet_cons_of_ne p t k v (by simpa using hp),
        mapGet_cons_of_ne p _ k (by simpa using hp)]
      exact ih

theorem mapGet_mapSet_ne (l : List (String × String)) (k v k' : String)
    (h : k' ≠ k) : mapGet (mapSet l k v) k' = mapGet l k' := by
  have hkk : ((k, v).1 == k') = false := str_beq_false (fun hh => h hh.symm)
  induction l with
  | nil =>
    show mapGet [(k, v)] k' = mapGet [] k'
    rw [mapGet_cons_of_ne (k, v) [] k' hkk]
  | cons p t ih =>
    by_cases hp : (p.1 == k) = true
    · have hpk : p.1 = k := eq_of_beq hp
      have hpk' : (p.1 == k') = false := str_beq_false (fun hh => h (hpk ▸ hh).symm)
      rw [mapSet_cons_of_beq p t k v hp, mapGet_cons_of_ne (k, v) t k' hkk,
        mapGet_cons_of_ne p t k' hpk']
    · rw [mapSet_cons_of_ne p t k v (by simpa using hp)]
      by_cases hq : (p.1 == k') = true
      · rw [mapGet_cons_of_beq p _ k' hq, mapGet_cons_of_beq p t k' hq]
      · rw [mapGet_cons_of_ne p _ k' (by simpa using hq),
          mapGet_cons_of_ne p t k' (by simpa using hq)]
        exact ih

theorem keys_mapSet_subset (l : List (String × String)) (k v : String) :
    ∀ a ∈ (mapSet l k v).map Prod.fst, a = k ∨ a ∈ l.map Prod.fst := by
  induction l with
  | nil => simp [mapSet]
  | cons p t ih =>
    by_cases hp : (p.1 == k) = true
    · rw [mapSet_cons_of_beq p t k v hp]
      intro a ha
      simp only [List.map_cons, List.mem_cons] at ha ⊢
      rcases ha with h1 | h2
      · exact Or.inl h1
      · exact Or.inr (Or.inr h2)
    · rw [mapSet_cons_of_ne p t k v (by simpa using hp)]
      intro a ha
      simp only [List.map_cons, List.mem_cons] at ha ⊢
      rcases ha with h1 | h2
      · exact Or.inr (Or.inl h1)
      · rcases ih a h2 with h3 | h4
        · exact Or.inl h3
        · exact Or.inr (Or.inr h4)

theorem nodupKeys_mapSet (l : List (String × String)) (k v : String)
    (h : nodupKeys l) : nodupKeys (mapSet l k v) := by
  induction l with
  | nil => simp [mapSet, nodupKeys]
  | cons p t ih =>
    simp only [nodupKeys, List.map_cons, List.nodup_cons] at h
    by_cases hp : (p.1 == k) = true
    · have hpk : p.1 = k := eq_of_beq hp
      rw [mapSet_cons_of_beq p t k v hp]
      simp only [nodupKeys, List.map_cons, List.nodup_cons]
      exact ⟨by simpa [hpk] using h.1, h.2⟩
    · rw [mapSet_cons_of_ne p t k v (by simpa using hp)]
      simp only [nodupKeys, List.map_cons, List.nodup_cons]
      refine ⟨?_, ih h.2⟩
      intro hmem
      rcases keys_mapSet_subset t k v p.1 hmem with h1 | h2
      · exact hp (by simp [h1])
      · exact h.1 h2

theorem countKey_eq_zero_of_not_mem (l : List (String × String)) (k : String)
    (h : k ∉ l.map Prod.fst) : countKey l k = 0 := by
  induction l with
  | nil => rfl
  | cons p t ih =>
    simp only [List.map_cons, List.mem_cons, not_or] at h
    have hp : (p.1 == k) = false := str_beq_false (fun hh => h.1 hh.symm)
    simp only [countKey, List.filter_cons, hp, Bool.false_eq_true, if_false]
    exact ih h.2

theorem countKey_mapSet_self (l : List (String × String)) (k v : String)
    (h : nodupKeys l) : countKey (mapSet l k v) k = 1 := by
  induction l with
  | nil => simp [mapSet, countKey]
  | cons p t ih =>
    simp only [nodupKeys, List.map_cons, List.nodup_cons] at h
    by_cases hp : (p.1 == k) = true
    · have hpk : p.1 = k := eq_of_beq hp
      rw [mapSet_cons_of_beq p t k v hp]
      have ht : countKey t k = 0 :=
        countKey_eq_zero_of_not_mem t k (by simpa [hpk] using h.1)
      simp only [countKey, List.filter_cons, beq_self_eq_true, if_true,
        List.length_cons]
      simpa [countKey] using ht
    · rw [mapSet_cons_of_ne p t k v (by simpa using hp)]
      simp only [countKey, List.filter_cons, hp, Bool.false_eq_true, if_false]
      exact ih h.2

theorem mapSet_eq_self (l : List (String × String)) (k v : String)
    (hwf : nodupKeys l) (h : mapGet l k = some v) : mapSet l k v = l := by
  induction l with
  | nil => simp [mapGet] at h
  | cons p t ih =>
    simp only [nodupKeys, List.map_cons, List.nodup_cons] at hwf
    by_cases hp : (p.1 == k) = true
    · have hpk : p.1 = k := eq_of_beq hp
      have hv : p.2 = v := by
        rw [mapGet_cons_of_beq p t k hp] at h
        exact Option.some.inj h
      calc mapSet (p :: t) k v = (k, v) :: t := mapSet_cons_of_beq p t k v hp
        _ = p :: t := by rw [← hpk, ← hv]
    · rw [mapGet_cons_of_ne p t k (by simpa using hp)] at h
      rw [mapSet_cons_of_ne p t k v (by simpa using hp), ih hwf.2 h]

/-! Helper lemmas about the engine operations. -/

theorem hasFresh_of_falsy (hash : String → String) (records : List (String × String))
    (d : Doc) (hid : jsTruthy d.id = false) :
    ContentHasher.hasFresh hash records d = false := by
  simp [ContentHasher.hasFresh, hid]

theorem set_of_falsy (hash : String → String) (records : List (String × String))
    (d : Doc) (hid : jsTruthy d.id = false) :
    ContentHasher.set hash records d = records := by
  simp [ContentHasher.set, hid]

theorem cachedLookup_of_falsy (hash : String → String) (st : EngineState) (d : Doc)
    (hid : jsTruthy d.id = false) : cachedLookup hash st d = none := by
  simp [cachedLookup, hid]

theorem cachedLookup_of_notFresh (hash : String → String) (st : EngineState) (d : Doc)
    (hfr : ContentHasher.hasFresh hash st.records d = false) :
    cachedLookup hash st d = none := by
  simp [cachedLookup, hfr]

theorem getSummaryFor_calls_of_falsy (hash : String → String) (summ : Doc → String)
    (st : EngineState) (d : Doc) (hid : jsTruthy d.id = false) :
    (getSummaryFor hash summ st d).summarizeCalls = 1 := by
  simp [getSummaryFor, cachedLookup_of_falsy hash st d hid]

theorem nodupKeys_set (hash : String → String) (records : List (String × String))
    (d : Doc) (h : nodupKeys records) :
    nodupKeys (ContentHasher.set hash records d) := by
  unfold ContentHasher.set
  split
  · exact nodupKeys_mapSet _ _ _ h
  · exact h

theorem set_truthy (hash : String → String) (records : List (String × String))
    (d : Doc) (hid : jsTruthy d.id = true) :
    ContentHasher.set hash records d
      = mapSet records (idKey d) (hash d.pageContent) := by
  simp [ContentHasher.set, hid]

theorem getSummaryFor_records_cases (hash : String → String) (summ : Doc → String)
    (st : EngineState) (d : Doc) :
    (getSummaryFor hash summ st d).st.records = st.records ∨
    (getSummaryFor hash summ st d).st.records = ContentHasher.set hash st.records d := by
  by_cases hf : ContentHasher.hasFresh hash st.records d = true
  · left
    simp [getSummaryFor, hf]
  · right
    have hf' : ContentHasher.hasFresh hash st.records d = false := by
      simpa using hf
    simp [getSummaryFor, hf']

theorem getSummaryFor_files_truthy (hash : String → String) (summ : Doc → String)
    (st : EngineState) (d : Doc) (hid : jsTruthy d.id = true) :
    (getSummaryFor hash summ st d).st.files
      = mapSet st.files (idKey d) (getSummaryFor hash summ st d).summary := by
  simp [getSummaryFor, hid]

theorem getSummaryFor_calls_le_one (hash : String → String) (summ : Doc → String)
    (st : EngineState) (d : Doc) :
    (getSummaryFor hash summ st d).summarizeCalls ≤ 1 := by
  unfold getSummaryFor
  cases cachedLookup hash st d <;> simp

theorem nodupKeys_getSummaryFor (hash : String → String) (summ : Doc → String)
    (st : EngineState) (d : Doc) (h : nodupKeys st.records) :
    nodupKeys (getSummaryFor hash summ st d).st.records := by
  rcases getSummaryFor_records_cases hash summ st d with hc | hc <;> rw [hc]
  · exact h
  · exact nodupKeys_set hash st.records d h

theorem indexOne_st (hash : String → String) (summ : Doc → String)
    (st : EngineState) (d : Doc) :
    (indexOne hash summ st d).2.1.records
        = ContentHasher.set hash (getSummaryFor hash summ st d).st.records d ∧
    (indexOne hash summ st d).2.1.savedRecords
        = ContentHasher.set hash (getSummaryFor hash summ st d).st.records d ∧
    (indexOne hash summ st d).2.1.files = (getSummaryFor hash summ st d).st.files ∧
    (indexOne hash summ st d).2.1.vecIndex
        = ((getSummaryFor hash summ st d).st.vecIndex.filter
            (fun p => !(p.1 == d.id)))
          ++ [(d.id, ⟨(getSummaryFor hash summ st d).summary, d.id⟩)] ∧
    (indexOne hash summ st d).2.2 = (getSummaryFor hash summ st d).summarizeCalls := by
  refine ⟨rfl, rfl, rfl, rfl, rfl⟩

theorem index_singleton (hash : String → String) (summ : Doc → String)
    (st : EngineState) (d : Doc) :
    index hash summ st [d]
      = ⟨[(indexOne hash summ st d).1], (indexOne hash summ st d).2.1,
          (indexOne hash summ st d).2.2⟩ := by
  simp [index]

theorem filter_key_of_replaced {β : Type} (l : List (Option String × β))
    (k : Option String) (x : Option String × β) (hx : x.1 = k) :
    (((l.filter (fun p => !(p.1 == k))) ++ [x]).filter (fun p => p.1 == k)) = [x] := by
  rw [List.filter_append]
  have h1 : ((l.filter (fun p => !(p.1 == k))).filter (fun p => p.1 == k)) = [] := by
    rw [List.filter_filter]
    have : ∀ p : Option String × β, ((p.1 == k) && !(p.1 == k)) = false := by
      intro p
      cases p.1 == k <;> rfl
    simp [this]
  have h2 : (([x] : List (Option String × β)).filter (fun p => p.1 == k)) = [x] := by
    simp [List.filter_cons, hx]
  rw [h1, h2, List.nil_append]

/-! The claims. -/

/-- C9: when the persisted `contentHashes.json` is malformed, `load` returns
`false`, never throws (it is a total function), and leaves the store usable
with an empty table; when the file is absent, `load` returns `true` and the
table is empty. -/
theorem contentHasher_load_fails_open :
    ∀ r : List (String × String),
      ContentHasher.load ContentHasher.HashFile.malformed r = (r, false) ∧
      ContentHasher.load ContentHasher.HashFile.absent r = (r, true) ∧
      ContentHasher.construct ContentHasher.HashFile.malformed = ([], false) ∧
      ContentHasher.construct ContentHasher.HashFile.absent = ([], true) :=
  fun _ => ⟨rfl, rfl, rfl, rfl⟩

/-- C3: for every query document, every limit and every result list the
vector index returns, no entry of the `related` sequence returned by
`suggest` carries the query document's own id. -/
theorem suggest_excludes_self {α : Type} (hash : String → String)
    (summ : Doc → String) (search : String → Nat → List (SummaryDoc × α))
    (st : EngineState) (d : Doc) (limit : Nat) :
    ((suggest hash summ search st d limit).suggestions.related).all
      (fun p => !(p.1 == d.id)) = true := by
  rw [List.all_eq_true]
  intro p hp
  simp only [suggest] at hp
  have hp' := List.take_subset _ _ hp
  obtain ⟨q, hq, rfl⟩ := List.mem_map.mp hp'
  exact (List.mem_filter.mp hq).2

/-- C4: `suggest` asks the vector index for `limit + 1` nearest neighbours,
and the returned `related` sequence has at most `limit + 1` entries and is
an order-preserving subsequence of the index's result list (so the index's
ascending-score order is preserved). -/
theorem suggest_truncation_and_order {α : Type} (hash : String → String)
    (summ : Doc → String) (search : String → Nat → List (SummaryDoc × α))
    (st : EngineState) (d : Doc) (limit : Nat) :
    (suggest hash summ search st d limit).requestedK = limit + 1 ∧
    (suggest hash summ search st d limit).suggestions.related.length ≤ limit + 1 ∧
    List.Sublist (suggest hash summ search st d limit).suggestions.related
      ((search (getSummaryFor hash summ st d).summary (limit + 1)).map
        (fun p => (p.1.sourceDocumentId, p.2))) := by
  refine ⟨rfl, ?_, ?_⟩
  · simp only [suggest]
    exact List.length_take_le _ _
  · simp only [suggest]
    exact (List.take_sublist _ _).trans (List.Sublist.map _ (List.filter_sublist _))

/-- C6: `getSummaryFor` on a document without an id still invokes the
summarization service and returns its summary, but leaves the fingerprint
table (in memory and, given the maintained memory/disk sync, on disk) and
the summaries directory unchanged, and a repeated call on the same state
re-derives (invokes the service again). -/
theorem getSummaryFor_missing_id_degrades (hash : String → String)
    (summ : Doc → String) (st : EngineState) (d : Doc)
    (hid : jsTruthy d.id = false)
    (hsync : st.savedRecords = st.records) :
    (getSummaryFor hash summ st d).summary = summ d ∧
    (getSummaryFor hash summ st d).summarizeCalls = 1 ∧
    (getSummaryFor hash summ st d).st.records = st.records ∧
    (getSummaryFor hash summ st d).st.savedRecords = st.savedRecords ∧
    (getSummaryFor hash summ st d).st.files = st.files ∧
    (getSummaryFor hash summ st d).artifactWrites = [] ∧
    (getSummaryFor hash summ (getSummaryFor hash summ st d).st d).summarizeCalls
      = 1 := by
  have hfr := hasFresh_of_falsy hash st.records d hid
  have hcl := cachedLookup_of_falsy hash st d hid
  have hset := set_of_falsy hash st.records d hid
  refine ⟨?_, ?_, ?_, ?_, ?_, ?_, ?_⟩
  · simp [getSummaryFor, hcl]
  · exact getSummaryFor_calls_of_falsy hash summ st d hid
  · simp [getSummaryFor, hfr, hset]
  · simp [getSummaryFor, hfr, hset, hsync]
  · simp [getSummaryFor, hid]
  · simp [getSummaryFor, hid]
  · exact getSummaryFor_calls_of_falsy hash summ _ d hid

/-- C5 (counterexample): on the fresh-hit path the source still reaches the
unconditional `fs.writeFileSync` (ReadNext.ts lines 627-630), so the cached
artifact file IS re-written: at a concrete fresh state the write list of
`getSummaryFor` is non-empty, contradicting "rewrites neither the
fingerprint table nor the cached artifact file". -/
theorem getSummaryFor_freshHit_rewrites_artifact :
    jsTruthy dW.id = true ∧
    ContentHasher.hasFresh hashW freshState.records dW = true ∧
    mapGet freshState.files (idKey dW) = some "cached summary" ∧
    (getSummaryFor hashW summW freshState dW).artifactWrites
      = [("1", "cached summary")] := by
  refine ⟨by decide, by decide, by decide, by decide⟩

/-- C5 (amended): on the fresh-hit path (truthy id, fresh fingerprint,
cached summary file present) `getSummaryFor` returns the cached summary
without invoking the summarizer, does not touch the fingerprint table in
memory or on disk and performs no `ContentHasher.save`; the artifact file
is re-written, but with its existing content, so the summaries directory is
left unchanged. -/
theorem getSummaryFor_freshHit_frame (hash : String → String) (summ : Doc → String)
    (st : EngineState) (d : Doc) (s : String)
    (hid : jsTruthy d.id = true)
    (hfr : ContentHasher.hasFresh hash st.records d = true)
    (hfile : mapGet st.files (idKey d) = some s)
    (hwf : nodupKeys st.files) :
    (getSummaryFor hash summ st d).summary = s ∧
    (getSummaryFor hash summ st d).summarizeCalls = 0 ∧
    (getSummaryFor hash summ st d).hasherSaves = 0 ∧
    (getSummaryFor hash summ st d).st.records = st.records ∧
    (getSummaryFor hash summ st d).st.savedRecords = st.savedRecords ∧
    (getSummaryFor hash summ st d).artifactWrites = [(idKey d, s)] ∧
    (getSummaryFor hash summ st d).st.files = st.files := by
  have hcl : cachedLookup hash st d = some s := by
    simp [cachedLookup, hid, hfr, hfile]
  refine ⟨?_, ?_, ?_, ?_, ?_, ?_, ?_⟩
  · simp [getSummaryFor, hcl]
  · simp [getSummaryFor, hcl]
  · simp [getSummaryFor, hfr]
  · simp [getSummaryFor, hfr]
  · simp [getSummaryFor, hfr]
  · simp [getSummaryFor, hid, hcl]
  · have hself := mapSet_eq_self st.files (idKey d) s hwf hfile
    simp [getSummaryFor, hid, hcl, hself]

/-- C5 (witness): the amended fresh-hit frame theorem at a concrete state. -/
theorem getSummaryFor_freshHit_frame_witness :
    (jsTruthy dW.id = true ∧
     ContentHasher.hasFresh hashW freshState.records dW = true ∧
     mapGet freshState.files (idKey dW) = some "cached summary" ∧
     nodupKeys freshState.files) ∧
    ((getSummaryFor hashW summW freshState dW).summary = "cached summary" ∧
     (getSummaryFor hashW summW freshState dW).summarizeCalls = 0 ∧
     (getSummaryFor hashW summW freshState dW).hasherSaves = 0 ∧
     (getSummaryFor hashW summW freshState dW).st.records = freshState.records ∧
     (getSummaryFor hashW summW freshState dW).st.savedRecords
       = freshState.savedRecords ∧
     (getSummaryFor hashW summW freshState dW).artifactWrites
       = [(idKey dW, "cached summary")] ∧
     (getSummaryFor hashW summW freshState dW).st.files = freshState.files) :=
  ⟨⟨by decide, by decide, by decide, by decide⟩,
    getSummaryFor_freshHit_frame hashW summW freshState dW "cached summary"
      (by decide) (by decide) (by decide) (by decide)⟩

/-- C6 (witness): the missing-id degradation theorem at a concrete
document with no id and a fresh engine. -/
theorem getSummaryFor_missing_id_degrades_witness :
    (jsTruthy dNoId.id = false ∧ emptyState.savedRecords = emptyState.records) ∧
    ((getSummaryFor hashW summW emptyState dNoId).summary = summW dNoId ∧
     (getSummaryFor hashW summW emptyState dNoId).summarizeCalls = 1 ∧
     (getSummaryFor hashW summW emptyState dNoId).st.records = emptyState.records ∧
     (getSummaryFor hashW summW emptyState dNoId).st.savedRecords
       = emptyState.savedRecords ∧
     (getSummaryFor hashW summW emptyState dNoId).st.files = emptyState.files ∧
     (getSummaryFor hashW summW emptyState dNoId).artifactWrites = [] ∧
     (getSummaryFor hashW summW
        (getSummaryFor hashW summW emptyState dNoId).st dNoId).summarizeCalls
       = 1) :=
  ⟨⟨by decide, by decide⟩,
    getSummaryFor_missing_id_degrades hashW summW emptyState dNoId
      (by decide) (by decide)⟩

/-- C10: after every `getSummaryFor` call on a document with a (truthy) id —
cache hit or re-derivation — the in-memory fingerprint table maps that id to
the digest of the document's `pageContent`, and the `summaries/<id>` file
holds exactly the returned summary. -/
theorem getSummaryFor_cache_consistency (hash : String → String)
    (summ : Doc → String) (st : EngineState) (d : Doc)
    (hid : jsTruthy d.id = true) :
    mapGet (getSummaryFor hash summ st d).st.records (idKey d)
      = some (hash d.pageContent) ∧
    mapGet (getSummaryFor hash summ st d).st.files (idKey d)
      = some (getSummaryFor hash summ st d).summary := by
  constructor
  · by_cases hf : ContentHasher.hasFresh hash st.records d = true
    · have hrec : mapGet st.records (idKey d) = some (hash d.pageContent) := by
        unfold ContentHasher.hasFresh at hf
        rw [if_pos hid] at hf
        exact eq_of_beq hf
      simp [getSummaryFor, hf, hrec]
    · have hf' : ContentHasher.hasFresh hash st.records d = false := by
        simpa using hf
      simp [getSummaryFor, hf', ContentHasher.set, hid, mapGet_mapSet_self]
  · rw [getSummaryFor_files_truthy hash summ st d hid]
    exact mapGet_mapSet_self _ _ _

/-- C10 (witness): cache consistency at a concrete document and fresh
engine. -/
theorem getSummaryFor_cache_consistency_witness :
    jsTruthy dW.id = true ∧
    (mapGet (getSummaryFor hashW summW emptyState dW).st.records (idKey dW)
       = some (hashW dW.pageContent) ∧
     mapGet (getSummaryFor hashW summW emptyState dW).st.files (idKey dW)
       = some (getSummaryFor hashW summW emptyState dW).summary) :=
  ⟨by decide, getSummaryFor_cache_consistency hashW summW emptyState dW (by decide)⟩

/-- C1: indexing a document with an id twice with identical content leaves
exactly one fingerprint-table entry and exactly one vector-index entry for
that id, and the summarization service is not invoked on the second call
(and at most once on the first). -/
theorem index_unchanged_idempotent (hash : String → String) (summ : Doc → String)
    (st : EngineState) (d : Doc)
    (hid : jsTruthy d.id = true) (hwf : nodupKeys st.records) :
    countKey (index hash summ (index hash summ st [d]).st [d]).st.records (idKey d)
      = 1 ∧
    ((index hash summ (index hash summ st [d]).st [d]).st.vecIndex.filter
        (fun p => p.1 == d.id)).length = 1 ∧
    (index hash summ (index hash summ st [d]).st [d]).summarizeCalls = 0 ∧
    (index hash summ st [d]).summarizeCalls ≤ 1 := by
  have hst1 : (index hash summ st [d]).st = (indexOne hash summ st d).2.1 := by
    rw [index_singleton]
  have hrecs1 : (indexOne hash summ st d).2.1.records
      = mapSet (getSummaryFor hash summ st d).st.records (idKey d)
          (hash d.pageContent) := by
    rw [(indexOne_st hash summ st d).1, set_truthy hash _ d hid]
  have hget1 : mapGet (indexOne hash summ st d).2.1.records (idKey d)
      = some (hash d.pageContent) := by
    rw [hrecs1]
    exact mapGet_mapSet_self _ _ _
  have hwf1 : nodupKeys (indexOne hash summ st d).2.1.records := by
    rw [(indexOne_st hash summ st d).1]
    exact nodupKeys_set hash _ d (nodupKeys_getSummaryFor hash summ st d hwf)
  have hfr1 : ContentHasher.hasFresh hash (indexOne hash summ st d).2.1.records d
      = true := by
    unfold ContentHasher.hasFresh
    rw [if_pos hid, hget1]
    simp
  have hfiles1 : (indexOne hash summ st d).2.1.files
      = mapSet st.files (idKey d) (getSummaryFor hash summ st d).summary := by
    rw [(indexOne_st hash summ st d).2.2.1,
      getSummaryFor_files_truthy hash summ st d hid]
  have hcl1 : cachedLookup hash (indexOne hash summ st d).2.1 d
      = some (getSummaryFor hash summ st d).summary := by
    simp [cachedLookup, hid, hfr1, hfiles1, mapGet_mapSet_self]
  have hgs2calls :
      (getSummaryFor hash summ (indexOne hash summ st d).2.1 d).summarizeCalls
        = 0 := by
    simp [getSummaryFor, hcl1]
  have hgs2recs :
      (getSummaryFor hash summ (indexOne hash summ st d).2.1 d).st.records
        = (indexOne hash summ st d).2.1.records := by
    simp [getSummaryFor, hfr1]
  refine ⟨?_, ?_, ?_, ?_⟩
  · rw [hst1, index_singleton]
    show countKey (indexOne hash summ (indexOne hash summ st d).2.1 d).2.1.records
        (idKey d) = 1
    rw [(indexOne_st hash summ _ d).1, hgs2recs, set_truthy hash _ d hid]
    exact countKey_mapSet_self _ _ _ hwf1
  · rw [hst1, index_singleton]
    show ((indexOne hash summ (indexOne hash summ st d).2.1 d).2.1.vecIndex.filter
        (fun p => p.1 == d.id)).length = 1
    rw [(indexOne_st hash summ _ d).2.2.2.1, filter_key_of_replaced _ d.id _ rfl]
    rfl
  · rw [hst1, index_singleton]
    show (indexOne hash summ (indexOne hash summ st d).2.1 d).2.2 = 0
    rw [(indexOne_st hash summ _ d).2.2.2.2, hgs2calls]
  · rw [index_singleton]
    show (indexOne hash summ st d).2.2 ≤ 1
    rw [(indexOne_st hash summ st d).2.2.2.2]
    exact getSummaryFor_calls_le_one hash summ st d

/-- C1 (witness): idempotence of `index` at a concrete document and fresh
engine. -/
theorem index_unchanged_idempotent_witness :
    (jsTruthy dW.id = true ∧ nodupKeys emptyState.records) ∧
    (countKey (index hashW summW (index hashW summW emptyState [dW]).st [dW]).st.records
        (idKey dW) = 1 ∧
     ((index hashW summW (index hashW summW emptyState [dW]).st [dW]).st.vecIndex.filter
        (fun p => p.1 == dW.id)).length = 1 ∧
     (index hashW summW (index hashW summW emptyState [dW]).st [dW]).summarizeCalls
        = 0 ∧
     (index hashW summW emptyState [dW]).summarizeCalls ≤ 1) :=
  ⟨⟨by decide, by decide⟩,
    index_unchanged_idempotent hashW summW emptyState dW (by decide) (by decide)⟩

/-- C2: indexing a document with an id, then indexing different content
under the same id (with distinct digests), invokes the summarization
service on the second call and overwrites the cached summary file and the
stored fingerprint (in memory and on disk) for that id. -/
theorem index_changed_reinvokes_and_overwrites (hash : String → String)
    (summ : Doc → String) (st : EngineState) (d d' : Doc)
    (hid : jsTruthy d.id = true)
    (hsame : d'.id = d.id)
    (hneq : hash d'.pageContent ≠ hash d.pageContent) :
    (index hash summ (index hash summ st [d]).st [d']).summarizeCalls = 1 ∧
    mapGet (index hash summ (index hash summ st [d]).st [d']).st.records (idKey d)
      = some (hash d'.pageContent) ∧
    mapGet (index hash summ (index hash summ st [d]).st [d']).st.savedRecords
        (idKey d)
      = some (hash d'.pageContent) ∧
    mapGet (index hash summ (index hash summ st [d]).st [d']).st.files (idKey d)
      = some (summ d') := by
  have hid' : jsTruthy d'.id = true := by rw [hsame]; exact hid
  have hkey : idKey d' = idKey d := by unfold idKey; rw [hsame]
  have hst1 : (index hash summ st [d]).st = (indexOne hash summ st d).2.1 := by
    rw [index_singleton]
  have hget1 : mapGet (indexOne hash summ st d).2.1.records (idKey d)
      = some (hash d.pageContent) := by
    rw [(indexOne_st hash summ st d).1, set_truthy hash _ d hid]
    exact mapGet_mapSet_self _ _ _
  have hfr2 : ContentHasher.hasFresh hash (indexOne hash summ st d).2.1.records d'
      = false := by
    unfold ContentHasher.hasFresh
    rw [if_pos hid', hkey, hget1]
    exact beq_eq_false_iff_ne.mpr (fun h => hneq (Option.some.inj h).symm)
  have hcl2 : cachedLookup hash (indexOne hash summ st d).2.1 d' = none := by
    apply cachedLookup_of_notFresh
    exact hfr2
  have hgs2sum :
      (getSummaryFor hash summ (indexOne hash summ st d).2.1 d').summary
        = summ d' := by
    simp [getSummaryFor, hcl2]
  have hgs2calls :
      (getSummaryFor hash summ (indexOne hash summ st d).2.1 d').summarizeCalls
        = 1 := by
    simp [getSummaryFor, hcl2]
  have hgs2recs :
      (getSummaryFor hash summ (indexOne hash summ st d).2.1 d').st.records
        = mapSet (indexOne hash summ st d).2.1.records (idKey d')
            (hash d'.pageContent) := by
    simp [getSummaryFor, hfr2, set_truthy hash _ d' hid']
  have hrec2 : mapGet
      (indexOne hash summ (indexOne hash summ st d).2.1 d').2.1.records (idKey d)
      = some (hash d'.pageContent) := by
    rw [(indexOne_st hash summ _ d').1, set_truthy hash _ d' hid', ← hkey]
    exact mapGet_mapSet_self _ _ _
  refine ⟨?_, ?_, ?_, ?_⟩
  · rw [hst1, index_singleton]
    show (indexOne hash summ (indexOne hash summ st d).2.1 d').2.2 = 1
    rw [(indexOne_st hash summ _ d').2.2.2.2, hgs2calls]
  · rw [hst1, index_singleton]
    exact hrec2
  · rw [hst1, index_singleton]
    show mapGet
        (indexOne hash summ (indexOne hash summ st d).2.1 d').2.1.savedRecords
        (idKey d) = some (hash d'.pageContent)
    rw [(indexOne_st hash summ _ d').2.1, ← (indexOne_st hash summ _ d').1]
    exact hrec2
  · rw [hst1, index_singleton]
    show mapGet (indexOne hash summ (indexOne hash summ st d).2.1 d').2.1.files
        (idKey d) = some (summ d')
    rw [(indexOne_st hash summ _ d').2.2.1,
      getSummaryFor_files_truthy hash summ _ d' hid', hgs2sum, ← hkey]
    exact mapGet_mapSet_self _ _ _

/-- C2 (witness): freshness invalidation at a concrete document whose
content changes between the two `index` calls. -/
theorem index_changed_reinvokes_and_overwrites_witness :
    (jsTruthy dW.id = true ∧ dW2.id = dW.id ∧
     hashW dW2.pageContent ≠ hashW dW.pageContent) ∧
    ((index hashW summW (index hashW summW emptyState [dW]).st [dW2]).summarizeCalls
        = 1 ∧
     mapGet (index hashW summW (index hashW summW emptyState [dW]).st [dW2]).st.records
        (idKey dW) = some (hashW dW2.pageContent) ∧
     mapGet
        (index hashW summW (index hashW summW emptyState [dW]).st [dW2]).st.savedRecords
        (idKey dW) = some (hashW dW2.pageContent) ∧
     mapGet (index hashW summW (index hashW summW emptyState [dW]).st [dW2]).st.files
        (idKey dW) = some (summW dW2)) :=
  ⟨⟨by decide, by decide, by decide⟩,
    index_changed_reinvokes_and_overwrites hashW summW emptyState dW dW2
      (by decide) (by decide) (by decide)⟩

/-! Helper lemmas for the scheduler. -/

theorem jsTruthy_some {o : Option String} (h : jsTruthy o = true) :
    ∃ s, o = some s := by
  cases o with
  | none => simp [jsTruthy] at h
  | some s => exact ⟨s, rfl⟩

theorem count_append_singleton (l : List Nat) (a b : Nat) :
    (l ++ [b]).count a = l.count a + (if b = a then 1 else 0) := by
  rw [List.count_append, List.count_singleton']

theorem cachedAt_preserved (hash : String → String) (recs : List (String × String))
    (files : List String) (dk di : Doc)
    (hne : jsTruthy di.id = true → jsTruthy dk.id = true → di.id ≠ dk.id) :
    cachedAt hash (ContentHasher.set hash recs dk)
      (if jsTruthy dk.id then idKey dk :: files else files) di
      = cachedAt hash recs files di := by
  by_cases hdi : jsTruthy di.id = true
  · by_cases hdk : jsTruthy dk.id = true
    · obtain ⟨si, hsi⟩ := jsTruthy_some hdi
      obtain ⟨sk, hsk⟩ := jsTruthy_some hdk
      have hkey : idKey di ≠ idKey dk := by
        unfold idKey
        rw [hsi, hsk]
        intro h
        exact hne hdi hdk (by rw [hsi, hsk]; exact congrArg some h)
      have hf : ContentHasher.hasFresh hash (ContentHasher.set hash recs dk) di
          = ContentHasher.hasFresh hash recs di := by
        unfold ContentHasher.hasFresh
        rw [if_pos hdi, if_pos hdi, set_truthy hash recs dk hdk,
          mapGet_mapSet_ne _ _ _ _ hkey]
      unfold cachedAt
      rw [if_pos hdi, if_pos hdi, hf, if_pos hdk]
      by_cases hfr : ContentHasher.hasFresh hash recs di = true
      · rw [if_pos hfr, if_pos hfr]
        show (idKey dk :: files).contains (idKey di) = files.contains (idKey di)
        rw [List.contains_cons, str_beq_false hkey, Bool.false_or]
      · rw [if_neg hfr, if_neg hfr]
    · have hdk' : jsTruthy dk.id = false := by simpa using hdk
      rw [set_of_falsy hash recs dk hdk', if_neg (by simp [hdk'])]
  · unfold cachedAt
    rw [if_neg hdi, if_neg hdi]

theorem schedRun_count (hash : String → String) (docs : List Doc)
    (hdist : ∀ (i j : Nat) (di dj : Doc), i ≠ j →
      docs[i]? = some di → docs[j]? = some dj →
      jsTruthy di.id = true → jsTruthy dj.id = true → di.id ≠ dj.id) :
    ∀ (tr : List SEv) (s : SchedState),
      (∀ e ∈ tr, SEv.idx e < docs.length) →
      (∀ i, i < docs.length → docPhase hash docs tr s i) →
      (∀ i, i < docs.length →
          (tr.foldl (schedStep hash docs) s).invoked.count i = 1) ∧
      (∀ a, docs.length ≤ a →
          (tr.foldl (schedStep hash docs) s).invoked.count a
            = s.invoked.count a) := by
  intro tr
  induction tr with
  | nil =>
    intro s _ hphase
    constructor
    · intro i hi
      rcases hphase i hi with ⟨hf, _, _⟩ | ⟨hf, _⟩ | ⟨_, hc⟩
      · simp at hf
      · simp at hf
      · exact hc
    · intro a _
      rfl
  | cons e tr ih =>
    intro s hidx hphase
    have hk : SEv.idx e < docs.length := hidx e (List.mem_cons_self e tr)
    cases e with
    | check k =>
      have hk : k < docs.length := hk
      obtain ⟨dk, hdk⟩ : ∃ dk, docs[k]? = some dk :=
        ⟨_, List.getElem?_eq_getElem hk⟩
      rcases hphase k hk with ⟨hf, hcach, hcnt⟩ | ⟨hf, _⟩ | ⟨hf, _⟩
      · rw [List.filter_cons] at hf
        simp only [SEv.idx, beq_self_eq_true, if_true, List.cons.injEq, true_and] at hf
        have hcached := hcach dk hdk
        have hstep : schedStep hash docs s (SEv.check k)
            = { s with invoked := s.invoked ++ [k] } := by
          simp [schedStep, hdk, hcached]
        rw [List.foldl_cons, hstep]
        have hphase' : ∀ i, i < docs.length →
            docPhase hash docs tr { s with invoked := s.invoked ++ [k] } i := by
          intro i hi
          by_cases hik : i = k
          · subst hik
            refine Or.inr (Or.inl ⟨hf, ?_⟩)
            rw [count_append_singleton, hcnt, if_pos rfl]
          · have hfi : ((SEv.check k :: tr).filter (fun e => SEv.idx e == i))
                = tr.filter (fun e => SEv.idx e == i) := by
              rw [List.filter_cons]
              have : (SEv.idx (SEv.check k) == i) = false := by
                simp [SEv.idx]
                exact fun h => hik h.symm
              rw [this]
              simp
            have hcnti : (s.invoked ++ [k]).count i = s.invoked.count i := by
              rw [count_append_singleton, if_neg (fun h => hik h.symm)]
              simp
            rcases hphase i hi with ⟨hfA, hcachA, hcntA⟩ | ⟨hfA, hcA⟩ | ⟨hfA, hcA⟩
            · exact Or.inl ⟨by rw [← hfi]; exact hfA, hcachA, by rw [hcnti]; exact hcntA⟩
            · exact Or.inr (Or.inl ⟨by rw [← hfi]; exact hfA, by rw [hcnti]; exact hcA⟩)
            · exact Or.inr (Or.inr ⟨by rw [← hfi]; exact hfA, by rw [hcnti]; exact hcA⟩)
        have hidx' : ∀ e ∈ tr, SEv.idx e < docs.length := by
          intro e he
          exact hidx e (List.mem_cons_of_mem _ he)
        have hres := ih { s with invoked := s.invoked ++ [k] } hidx' hphase'
        refine ⟨hres.1, ?_⟩
        intro a ha
        rw [hres.2 a ha]
        show (s.invoked ++ [k]).count a = s.invoked.count a
        have hka : ¬(k = a) := by
          intro h
          rw [h] at hk
          exact absurd hk (not_lt.mpr ha)
        rw [count_append_singleton, if_neg hka]
        rfl
      · rw [List.filter_cons] at hf
        simp only [SEv.idx, beq_self_eq_true, if_true] at hf
        simp at hf
      · rw [List.filter_cons] at hf
        simp only [SEv.idx, beq_self_eq_true, if_true] at hf
        simp at hf
    | finish k =>
      have hk : k < docs.length := hk
      obtain ⟨dk, hdk⟩ : ∃ dk, docs[k]? = some dk :=
        ⟨_, List.getElem?_eq_getElem hk⟩
      rcases hphase k hk with ⟨hf, _, _⟩ | ⟨hf, hcnt⟩ | ⟨hf, _⟩
      · rw [List.filter_cons] at hf
        simp only [SEv.idx, beq_self_eq_true, if_true] at hf
        simp at hf
      · rw [List.filter_cons] at hf
        simp only [SEv.idx, beq_self_eq_true, if_true, List.cons.injEq, true_and] at hf
        have hstep : schedStep hash docs s (SEv.finish k)
            = { s with
                  records := ContentHasher.set hash s.records dk
                  filesPresent := if jsTruthy dk.id then idKey dk :: s.filesPresent
                                  else s.filesPresent } := by
          simp [schedStep, hdk]
        rw [List.foldl_cons, hstep]
        have hphase' : ∀ i, i < docs.length →
            docPhase hash docs tr
              { s with
                  records := ContentHasher.set hash s.records dk
                  filesPresent := if jsTruthy dk.id then idKey dk :: s.filesPresent
                                  else s.filesPresent } i := by
          intro i hi
          by_cases hik : i = k
          · subst hik
            exact Or.inr (Or.inr ⟨hf, hcnt⟩)
          · have hfi : ((SEv.finish k :: tr).filter (fun e => SEv.idx e == i))
                = tr.filter (fun e => SEv.idx e == i) := by
              rw [List.filter_cons]
              have : (SEv.idx (SEv.finish k) == i) = false := by
                simp [SEv.idx]
                exact fun h => hik h.symm
              rw [this]
              simp
            rcases hphase i hi with ⟨hfA, hcachA, hcntA⟩ | ⟨hfA, hcA⟩ | ⟨hfA, hcA⟩
            · refine Or.inl ⟨by rw [← hfi]; exact hfA, ?_, hcntA⟩
              intro di hdi
              show cachedAt hash (ContentHasher.set hash s.records dk)
                  (if jsTruthy dk.id then idKey dk :: s.filesPresent
                   else s.filesPresent) di = false
              rw [cachedAt_preserved hash s.records s.filesPresent dk di
                  (fun h1 h2 => hdist i k di dk hik hdi hdk h1 h2)]
              exact hcachA di hdi
            · exact Or.inr (Or.inl ⟨by rw [← hfi]; exact hfA, hcA⟩)
            · exact Or.inr (Or.inr ⟨by rw [← hfi]; exact hfA, hcA⟩)
        have hidx' : ∀ e ∈ tr, SEv.idx e < docs.length := by
          intro e he
          exact hidx e (List.mem_cons_of_mem _ he)
        have hres := ih _ hidx' hphase'
        exact ⟨hres.1, fun a ha => hres.2 a ha⟩
      · rw [List.filter_cons] at hf
        simp only [SEv.idx, beq_self_eq_true, if_true] at hf
        simp at hf

/-- C7: (spec-modelled scheduler, §4.4) for every batch whose documents have
pairwise distinct (truthy) ids and none of which has a fresh cached
summary, every parallelism setting `K` and every interleaving of the
workers' events the cursor discipline allows, the summarization service is
invoked exactly once per document — the invocation list is a permutation of
the document indices, so exactly `N` invocations in total, no duplicates,
no omissions, regardless of `K`. -/
theorem scheduler_invokes_once_per_document (hash : String → String) (K : Nat)
    (docs : List Doc) (records0 : List (String × String)) (files0 : List String)
    (tr : List SEv)
    (hv : validTrace docs.length tr)
    (hdist : docs.Pairwise (fun a b =>
        jsTruthy a.id = true → jsTruthy b.id = true → a.id ≠ b.id))
    (hfresh : ∀ d ∈ docs, cachedAt hash records0 files0 d = false) :
    (schedRun hash K docs ⟨records0, files0, []⟩ tr).invoked.Perm
        (List.range docs.length) ∧
    (schedRun hash K docs ⟨records0, files0, []⟩ tr).invoked.length
      = docs.length := by
  have hdist' : ∀ (i j : Nat) (di dj : Doc), i ≠ j →
      docs[i]? = some di → docs[j]? = some dj →
      jsTruthy di.id = true → jsTruthy dj.id = true → di.id ≠ dj.id := by
    intro i j di dj hij hdi hdj h1 h2
    obtain ⟨hi, hdi'⟩ := List.getElem?_eq_some.mp hdi
    obtain ⟨hj, hdj'⟩ := List.getElem?_eq_some.mp hdj
    rcases Nat.lt_or_ge i j with hlt | hge
    · have hr := List.pairwise_iff_getElem.mp hdist i j hi hj hlt
      rw [hdi', hdj'] at hr
      exact hr h1 h2
    · have hgt : j < i := Nat.lt_of_le_of_ne hge (fun h => hij h.symm)
      have hr := List.pairwise_iff_getElem.mp hdist j i hj hi hgt
      rw [hdi', hdj'] at hr
      exact fun h => (hr h2 h1) h.symm
  have hphase0 : ∀ i, i < docs.length →
      docPhase hash docs tr ⟨records0, files0, []⟩ i := by
    intro i hi
    refine Or.inl ⟨hv.2 i hi, ?_, rfl⟩
    intro d hd
    exact hfresh d (List.getElem?_mem hd)
  have hdef : schedRun hash K docs ⟨records0, files0, []⟩ tr
      = tr.foldl (schedStep hash docs) ⟨records0, files0, []⟩ := rfl
  have hrun := schedRun_count hash docs hdist' tr ⟨records0, files0, []⟩ hv.1 hphase0
  have hperm : (schedRun hash K docs ⟨records0, files0, []⟩ tr).invoked.Perm
      (List.range docs.length) := by
    rw [hdef, List.perm_iff_count]
    intro a
    by_cases ha : a < docs.length
    · rw [hrun.1 a ha,
        List.count_eq_one_of_mem (List.nodup_range _) (List.mem_range.mpr ha)]
    · rw [hrun.2 a (Nat.le_of_not_lt ha),
        List.count_eq_zero_of_not_mem (fun hc => ha (List.mem_range.mp hc))]
      rfl
  refine ⟨hperm, ?_⟩
  rw [hperm.length_eq, List.length_range]

/-- C7 (witness): the scheduler theorem at a concrete two-document batch,
parallelism 2, and an interleaved trace with both documents in flight. -/
theorem scheduler_invokes_once_per_document_witness :
    (validTrace docsW.length trW ∧
     docsW.Pairwise (fun a b =>
        jsTruthy a.id = true → jsTruthy b.id = true → a.id ≠ b.id) ∧
     (∀ d ∈ docsW, cachedAt hashW [] [] d = false)) ∧
    ((schedRun hashW 2 docsW ⟨[], [], []⟩ trW).invoked.Perm
        (List.range docsW.length) ∧
     (schedRun hashW 2 docsW ⟨[], [], []⟩ trW).invoked.length = docsW.length) :=
  ⟨⟨by decide, by decide, by decide⟩,
    scheduler_invokes_once_per_document hashW 2 docsW [] [] trW
      (by decide) (by decide) (by decide)⟩

/-! Helper lemmas for the worker pool. -/

theorem poolInv_init (docs : List Doc) (j : Nat) (err : String) :
    poolInv docs j err poolInit := by
  refine ⟨Nat.zero_le _, rfl, ?_, ?_⟩
  · show ([] : List String) = if j < 0 then [err] else []
    rw [if_neg (Nat.not_lt_zero j)]
  · show if j < 0 then ∃ w, ([] : List Nat) = [w] else ([] : List Nat) = []
    rw [if_neg (Nat.not_lt_zero j)]

theorem poolInv_step (summ : Doc → Except String String) (docs : List Doc)
    (j : Nat) (err : String) (w : Nat) (s : PoolState)
    (hfail : (docs[j]?).map summ = some (Except.error err))
    (hok : okExceptAt summ docs j = true)
    (hinv : poolInv docs j err s) :
    poolInv docs j err (poolStep summ docs s w) := by
  obtain ⟨h1, h2, h3, h4⟩ := hinv
  unfold poolStep
  by_cases hdead : s.dead.contains w = true
  · rw [if_pos hdead]
    exact ⟨h1, h2, h3, h4⟩
  · rw [if_neg hdead]
    cases hcur : docs[s.cursor]? with
    | none => exact ⟨h1, h2, h3, h4⟩
    | some d =>
      have hcn : s.cursor < docs.length := (List.getElem?_eq_some.mp hcur).1
      show poolInv docs j err (poolClaim summ s w d)
      by_cases hcj : s.cursor = j
      · have hsumm : summ d = Except.error err := by
          rw [hcj] at hcur
          rw [hcur] at hfail
          simpa using hfail
        unfold poolClaim
        rw [hsumm]
        refine ⟨?_, ?_, ?_, ?_⟩
        · show s.cursor + 1 ≤ docs.length
          omega
        · show s.processed
            = (List.range (s.cursor + 1)).filter (fun i => !(i == j))
          rw [List.range_succ, List.filter_append]
          have hone : (([s.cursor] : List Nat).filter (fun i => !(i == j))) = [] := by
            simp [hcj]
          rw [hone, List.append_nil]
          exact h2
        · show s.errors ++ [err] = if j < s.cursor + 1 then [err] else []
          rw [h3, if_neg (by omega), if_pos (by omega)]
          rfl
        · show if j < s.cursor + 1 then ∃ w', s.dead ++ [w] = [w']
              else s.dead ++ [w] = []
          rw [if_pos (by omega)]
          have hdnil : s.dead = [] := by
            rw [if_neg (by omega)] at h4
            exact h4
          exact ⟨w, by rw [hdnil]; rfl⟩
      · have hsumm : ∃ v, summ d = Except.ok v := by
          rw [okExceptAt, List.all_eq_true] at hok
          have h := hok s.cursor (List.mem_range.mpr hcn)
          rw [hcur] at h
          have hbe : (s.cursor == j) = false := by
            simp only [beq_eq_false_iff_ne, ne_eq]
            exact hcj
          rw [hbe, Bool.false_or] at h
          have h' : isOkB (summ d) = true := h
          cases he : summ d with
          | ok v => exact ⟨v, rfl⟩
          | error e =>
            rw [he] at h'
            simp [isOkB] at h'
        obtain ⟨v, hv⟩ := hsumm
        unfold poolClaim
        rw [hv]
        refine ⟨?_, ?_, ?_, ?_⟩
        · show s.cursor + 1 ≤ docs.length
          omega
        · show s.processed ++ [s.cursor]
            = (List.range (s.cursor + 1)).filter (fun i => !(i == j))
          rw [List.range_succ, List.filter_append]
          have hone : (([s.cursor] : List Nat).filter (fun i => !(i == j)))
              = [s.cursor] := by
            simp [hcj]
          rw [hone, h2]
        · show s.errors = if j < s.cursor + 1 then [err] else []
          rw [h3]
          by_cases hjlt : j < s.cursor
          · rw [if_pos hjlt, if_pos (by omega)]
          · rw [if_neg hjlt, if_neg (by omega)]
        · show if j < s.cursor + 1 then ∃ w', s.dead = [w'] else s.dead = []
          by_cases hjlt : j < s.cursor
          · rw [if_pos hjlt] at h4
            rw [if_pos (by omega)]
            exact h4
          · rw [if_neg hjlt] at h4
            rw [if_neg (by omega)]
            exact h4

theorem poolInv_run (summ : Doc → Except String String) (docs : List Doc)
    (j : Nat) (err : String)
    (hfail : (docs[j]?).map summ = some (Except.error err))
    (hok : okExceptAt summ docs j = true) :
    ∀ (sched : List Nat) (s : PoolState), poolInv docs j err s →
      poolInv docs j err (sched.foldl (poolStep summ docs) s) := by
  intro sched
  induction sched with
  | nil =>
    intro s h
    exact h
  | cons w tl ih =>
    intro s h
    exact ih _ (poolInv_step summ docs j err w s hfail hok h)

/-- C8 (counterexample): the claim as stated fails under the spec's own
default parallelism `K = 1` — the lone worker stops after the provider
error on the first document, so the sibling not yet started is never
processed even though the run is terminal (quiescent). -/
theorem pool_single_worker_aborts_unstarted :
    (docsX[0]?).map summX = some (Except.error "provider error") ∧
    okExceptAt summX docsX 0 = true ∧
    poolTerminal docsX 1 (poolRun summX docsX 1 [0, 0]) ∧
    1 < docsX.length ∧
    (poolRun summX docsX 1 [0, 0]).processed = [] :=
  ⟨rfl, by decide, by decide, by decide, by decide⟩

/-- C8 (amended): (spec-modelled scheduler, §4.4) when the summarization of
exactly one document of a batch fails and the worker pool has at least two
workers (`min K N ≥ 2`), any quiescent run has processed every sibling —
in flight or not yet started — exactly the failing document is missing, and
the error propagates to the caller of `index`; with a single worker the
documents after the failure are not processed (see the counterexample). -/
theorem pool_error_isolation (summ : Doc → Except String String) (docs : List Doc)
    (K : Nat) (sched : List Nat) (j : Nat) (err : String)
    (hK : 2 ≤ min K docs.length)
    (_hsched : ∀ w ∈ sched, w < min K docs.length)
    (hfail : (docs[j]?).map summ = some (Except.error err))
    (hok : okExceptAt summ docs j = true)
    (hterm : poolTerminal docs K (poolRun summ docs K sched)) :
    (poolRun summ docs K sched).processed
        = (List.range docs.length).filter (fun i => !(i == j)) ∧
    j ∉ (poolRun summ docs K sched).processed ∧
    (∀ i, i < docs.length → i ≠ j →
        i ∈ (poolRun summ docs K sched).processed) ∧
    poolResult (poolRun summ docs K sched) = Except.error err := by
  have hj : j < docs.length := by
    cases hd : docs[j]? with
    | none => rw [hd] at hfail; simp at hfail
    | some d => exact (List.getElem?_eq_some.mp hd).1
  obtain ⟨h1, h2, h3, h4⟩ :=
    poolInv_run summ docs j err hfail hok sched poolInit (poolInv_init docs j err)
  have hdef : poolRun summ docs K sched
      = sched.foldl (poolStep summ docs) poolInit := rfl
  rw [hdef] at hterm ⊢
  have hcur : (sched.foldl (poolStep summ docs) poolInit).cursor = docs.length := by
    rcases hterm with hle | hdeadall
    · omega
    · exfalso
      have hc0 : (sched.foldl (poolStep summ docs) poolInit).dead.contains 0
          = true := hdeadall 0 (Nat.lt_of_lt_of_le (by decide) hK)
      have hc1 : (sched.foldl (poolStep summ docs) poolInit).dead.contains 1
          = true := hdeadall 1 (Nat.lt_of_lt_of_le (by decide) hK)
      by_cases hjc : j < (sched.foldl (poolStep summ docs) poolInit).cursor
      · rw [if_pos hjc] at h4
        obtain ⟨w, hw⟩ := h4
        rw [hw] at hc0 hc1
        have e0 : (0 : Nat) = w := by simpa using hc0
        have e1 : (1 : Nat) = w := by simpa using hc1
        omega
      · rw [if_neg hjc] at h4
        rw [h4] at hc0
        simp at hc0
  have h2' : (sched.foldl (poolStep summ docs) poolInit).processed
      = (List.range docs.length).filter (fun i => !(i == j)) := by
    rw [h2, hcur]
  refine ⟨h2', ?_, ?_, ?_⟩
  · rw [h2']
    intro hmem
    have := (List.mem_filter.mp hmem).2
    simp at this
  · intro i hi hij
    rw [h2']
    refine List.mem_filter.mpr ⟨List.mem_range.mpr hi, ?_⟩
    simp [hij]
  · have h3' : (sched.foldl (poolStep summ docs) poolInit).errors = [err] := by
      rw [h3, if_pos (by omega)]
    unfold poolResult
    rw [h3']

/-- C8 (witness): the amended error-isolation theorem at a concrete
two-document batch with two workers, where the first document's
summarization fails and the second is still processed. -/
theorem pool_error_isolation_witness :
    (2 ≤ min 2 docsX.length ∧
     (∀ w ∈ ([0, 1, 1] : List Nat), w < min 2 docsX.length) ∧
     (docsX[0]?).map summX = some (Except.error "provider error") ∧
     okExceptAt summX docsX 0 = true ∧
     poolTerminal docsX 2 (poolRun summX docsX 2 [0, 1, 1])) ∧
    ((poolRun summX docsX 2 [0, 1, 1]).processed
        = (List.range docsX.length).filter (fun i => !(i == 0)) ∧
     0 ∉ (poolRun summX docsX 2 [0, 1, 1]).processed ∧
     (∀ i, i < docsX.length → i ≠ 0 →
        i ∈ (poolRun summX docsX 2 [0, 1, 1]).processed) ∧
     poolResult (poolRun summX docsX 2 [0, 1, 1]) = Except.error "provider error") :=
  ⟨⟨by decide, by decide, rfl, by decide, by decide⟩,
    pool_error_isolation summX docsX 2 [0, 1, 1] 0 "provider error"
      (by decide) (by decide) rfl (by decide) (by decide)⟩

end ReadNext
